import Mathlib

/-!
Verification development for the regx visual regex builder.

The TypeScript core is shallowly embedded in Lean: strings are modeled as
lists of characters (`Str`), JavaScript numbers occurring in the engine are
modeled as `Int` (all values produced by the code at hand are integral),
tagged unions become inductive types, and `undefined`-able fields become
`Option`.  Each definition mirrors the corresponding function of the source
(`src/lib/tokenizer.ts`, `src/lib/pretty-printer.ts`, `src/lib/matcher.ts`
and the two versions of the block compiler); inline `while` loops of the
source become named recursive helpers, noted where they occur.
-/

/-- Strings of the host language, modeled as lists of characters. -/
abbrev Str := List Char

/-- `src/lib/types.ts` : `TokenType`. -/
inductive TokenType
  | ANCHOR_START
  | ANCHOR_END
  | DIGIT
  | WHITESPACE
  | CHAR_CLASS
  | LITERAL
  | QUANTIFIER
  deriving DecidableEq, Repr

/-- `src/lib/types.ts` : `Quantifier`.  The source stores `type` plus optional
numeric fields; the five shapes actually constructed are modeled as an
inductive.  Numbers are modeled as `Int`. -/
inductive Quantifier
  | exact (count : Int)
  | range (min : Int) (max : Option Int)
  | plus
  | star
  | optional
  deriving DecidableEq, Repr

/-- `src/lib/types.ts` : `Token`. -/
structure Token where
  type : TokenType
  raw : Str
  description : Str
  quantifier : Option Quantifier := none
  deriving DecidableEq, Repr

/-- `src/lib/types.ts` : `TokenizeResult`. -/
structure TokenizeResult where
  success : Bool
  tokens : List Token
  error : Option Str := none
  deriving DecidableEq, Repr

/-- `src/lib/types.ts` : `Match`.  The source field `end` is a Lean keyword,
hence the French quotes. -/
structure Match where
  text : Str
  start : Nat
  «end» : Nat
  deriving DecidableEq, Repr

/-- `src/lib/types.ts` : `MatchResult`.  The source field `matches` is a
Lean keyword, hence the French quotes. -/
structure MatchResult where
  success : Bool
  «matches» : List Match
  error : Option Str := none
  deriving DecidableEq, Repr

/-- `src/lib/types.ts` : the quantifier enumeration carried by CHAR_CLASS,
WORD, ANY_CHAR and GROUP blocks.  (The TS type of WORD/ANY_CHAR omits
`range`; the compiler treats them uniformly, so one type is used here.) -/
inductive BlockQuant
  | one
  | oneOrMore
  | zeroOrMore
  | optional
  | range
  deriving DecidableEq, Repr

/-- `src/lib/types.ts` : the payload of each `Block` variant. -/
inductive BlockVal
  | START
  | END
  | TEXT (value : Str)
  | DIGIT (count : Int)
  | WHITESPACE
  | OPTIONAL (content : Str)
  | CHAR_CLASS (value : Str) (quantifier : BlockQuant) (min max : Option Int)
  | ONE_OR_MORE (content : Str)
  | ZERO_OR_MORE (content : Str)
  | WORD (quantifier : BlockQuant)
  | ANY_CHAR (quantifier : BlockQuant)
  | GROUP (content : Str) (quantifier : BlockQuant) (min max : Option Int)
  deriving DecidableEq, Repr

/-- `src/lib/types.ts` : `Block` = `BaseBlock` (`id`) plus the variant
payload.  The `id` is carried but never read by the compilers. -/
structure Block where
  id : Str
  val : BlockVal
  deriving DecidableEq, Repr

/-- Rendering of an integral JavaScript number into a string, as done by
template interpolation in the source. -/
def intToStr (n : Int) : Str := (toString n).toList

namespace Compiler

/-! The full block compiler (the unnamed source file holding the final
`compileBlocksToRegex`, imported by the store). -/

/-- `SPECIAL_REGEX_CHARS`: the character class of the escaping regex. -/
def SPECIAL_REGEX_CHARS : List Char :=
  ['\\', '^', '$', '.', '*', '+', '?', '(', ')', '[', ']', '{', '}', '|']

/-- `escapeRegexChars`: `text.replace(SPECIAL_REGEX_CHARS, '\\$&')` — the
global single-character-class replace scans the characters left to right and
prefixes each special one with a backslash. -/
def escapeRegexChars : Str → Str
  | [] => []
  | c :: rest =>
    (if c ∈ SPECIAL_REGEX_CHARS then ['\\', c] else [c]) ++ escapeRegexChars rest

/-- `buildQuantifier`. -/
def buildQuantifier (quantifier : BlockQuant) (min max : Option Int) : Str :=
  match quantifier with
  | .oneOrMore => ['+']
  | .zeroOrMore => ['*']
  | .optional => ['?']
  | .range =>
    match max with
    | some m => '{' :: intToStr (min.getD 1) ++ [','] ++ intToStr m ++ ['}']
    | none => '{' :: intToStr (min.getD 1) ++ [',', '}']
  | .one => []

/-- `compileBlock`. -/
def compileBlock (block : Block) : Str :=
  match block.val with
  | .START => ['^']
  | .END => ['$']
  | .DIGIT count =>
    let c := if 0 < count then count else 1
    '\\' :: 'd' :: '{' :: intToStr c ++ ['}']
  | .WHITESPACE => ['\\', 's']
  | .TEXT value => escapeRegexChars value
  | .OPTIONAL content =>
    let escapedContent := escapeRegexChars content
    if 1 < content.length then '(' :: '?' :: ':' :: escapedContent ++ [')', '?']
    else escapedContent ++ ['?']
  | .CHAR_CLASS value quantifier min max =>
    '[' :: value ++ ']' :: buildQuantifier quantifier min max
  | .ONE_OR_MORE content =>
    let escaped := escapeRegexChars content
    if 1 < content.length then '(' :: '?' :: ':' :: escaped ++ [')', '+']
    else escaped ++ ['+']
  | .ZERO_OR_MORE content =>
    let escaped := escapeRegexChars content
    if 1 < content.length then '(' :: '?' :: ':' :: escaped ++ [')', '*']
    else escaped ++ ['*']
  | .WORD quantifier => '\\' :: 'w' :: buildQuantifier quantifier none none
  | .ANY_CHAR quantifier => '.' :: buildQuantifier quantifier none none
  | .GROUP content quantifier min max =>
    '(' :: '?' :: ':' :: content ++ ')' :: buildQuantifier quantifier min max

/-- `compileBlocksToRegex`. -/
def compileBlocksToRegex (blocks : List Block) : Str :=
  if blocks = [] then [] else (blocks.map compileBlock).flatten

end Compiler

namespace CompilerLegacy

/-! The older partial block compiler (the unnamed source file that handles
only START, END, TEXT, DIGIT, WHITESPACE and OPTIONAL, with a
`default: return ''` branch). -/

/-- `SPECIAL_REGEX_CHARS` of the legacy file (identical text). -/
def SPECIAL_REGEX_CHARS : List Char :=
  ['\\', '^', '$', '.', '*', '+', '?', '(', ')', '[', ']', '{', '}', '|']

/-- `escapeRegexChars` of the legacy file (identical text). -/
def escapeRegexChars : Str → Str
  | [] => []
  | c :: rest =>
    (if c ∈ SPECIAL_REGEX_CHARS then ['\\', c] else [c]) ++ escapeRegexChars rest

/-- `compileBlock` of the legacy file: six cases plus a default. -/
def compileBlock (block : Block) : Str :=
  match block.val with
  | .START => ['^']
  | .END => ['$']
  | .DIGIT count =>
    let c := if 0 < count then count else 1
    '\\' :: 'd' :: '{' :: intToStr c ++ ['}']
  | .WHITESPACE => ['\\', 's']
  | .TEXT value => escapeRegexChars value
  | .OPTIONAL content =>
    let escapedContent := escapeRegexChars content
    if 1 < content.length then '(' :: '?' :: ':' :: escapedContent ++ [')', '?']
    else escapedContent ++ ['?']
  | _ => []

/-- `compileBlocksToRegex` of the legacy file. -/
def compileBlocksToRegex (blocks : List Block) : Str :=
  if blocks = [] then [] else (blocks.map compileBlock).flatten

end CompilerLegacy

/-! ## Tokenizer (`src/lib/tokenizer.ts`) -/

/-- The value of `parseInt` on a non-empty string of decimal digits. -/
def digitsToNat (ds : Str) : Nat :=
  ds.foldl (fun acc c => 10 * acc + (c.toNat - 48)) 0

/-- `parseQuantifier`: recognizes `+`, `*`, `?`, `{N}`, `{N,}` or `{N,M}` at
the front of `s` and returns the quantifier, the raw text consumed, and the
remaining input.  The source tries the anchored regexes `{(\d+),(\d*)}` and
`{(\d+)}` in turn; their matches are disjoint (presence of the comma), so
they are decided here by looking at the character after the leading digit
run. -/
def parseQuantifier (s : Str) : Option (Quantifier × Str × Str) :=
  match s with
  | '+' :: rest => some (.plus, ['+'], rest)
  | '*' :: rest => some (.star, ['*'], rest)
  | '?' :: rest => some (.optional, ['?'], rest)
  | '{' :: rest =>
    let ds := rest.takeWhile Char.isDigit
    let rest2 := rest.dropWhile Char.isDigit
    if ds = [] then none
    else
      match rest2 with
      | '}' :: rest3 =>
        some (.exact (digitsToNat ds : Int), '{' :: ds ++ ['}'], rest3)
      | ',' :: rest3 =>
        let ds2 := rest3.takeWhile Char.isDigit
        let rest4 := rest3.dropWhile Char.isDigit
        match rest4 with
        | '}' :: rest5 =>
          some (.range (digitsToNat ds : Int)
                  (if ds2 = [] then none else some (digitsToNat ds2 : Int)),
                '{' :: ds ++ ',' :: ds2 ++ ['}'], rest5)
        | _ => none
      | _ => none
  | _ => none

/-- `buildDescription`. -/
def buildDescription (baseDescription : Str) (quantifier : Option Quantifier) : Str :=
  match quantifier with
  | none => baseDescription
  | some (.exact count) =>
    baseDescription ++ " exactly ".toList ++ intToStr count ++ " times".toList
  | some (.range mn mx) =>
    match mx with
    | none => baseDescription ++ " ".toList ++ intToStr mn ++ " or more times".toList
    | some m =>
      baseDescription ++ " ".toList ++ intToStr mn ++ " to ".toList ++
        intToStr m ++ " times".toList
  | some .plus => baseDescription ++ " one or more times".toList
  | some .star => baseDescription ++ " zero or more times".toList
  | some .optional => baseDescription ++ " optionally".toList

/-- `createToken`: the source sets the `quantifier` field only when one was
supplied, which the `Option` models directly. -/
def createToken (type : TokenType) (raw baseDescription : Str)
    (quantifier : Option Quantifier) : Token :=
  { type := type, raw := raw,
    description := buildDescription baseDescription quantifier,
    quantifier := quantifier }

/-- The name of a `start`-`end` range, from the body of the scanning loop of
`describeCharacterClass`. -/
def rangeName (a b : Char) : Str :=
  if a = 'a' ∧ b = 'z' then "lowercase letters".toList
  else if a = 'A' ∧ b = 'Z' then "uppercase letters".toList
  else if a = '0' ∧ b = '9' then "digits".toList
  else [a, '-', b]

/-- The scanning `while` loop of `describeCharacterClass`: splits the class
body into described parts.  A `x-y` range (whose end is not a literal `]`)
is recognized before the escape check, exactly as in the source. -/
def describeClassParts : Str → List Str
  | [] => []
  | a :: '-' :: b :: rest =>
    if b ≠ ']' then rangeName a b :: describeClassParts rest
    else if a = '\\' then ['-'] :: describeClassParts (b :: rest)
    else [a] :: describeClassParts ('-' :: b :: rest)
  | '\\' :: c2 :: rest => [c2] :: describeClassParts rest
  | a :: rest => [a] :: describeClassParts rest
termination_by s => s.length
decreasing_by all_goals simp <;> omega

/-- `parts.join(', ')`. -/
def joinComma (parts : List Str) : Str :=
  (parts.intersperse (", ".toList)).flatten

/-- `describeCharacterClass`. -/
def describeCharacterClass (content : Str) : Str :=
  let isNegated : Bool := ("^".toList).isPrefixOf content
  let innerContent := if isNegated then content.tail else content
  if innerContent = "a-z".toList then
    if isNegated then "Any character except lowercase letters".toList
    else "Any lowercase letter".toList
  else if innerContent = "A-Z".toList then
    if isNegated then "Any character except uppercase letters".toList
    else "Any uppercase letter".toList
  else if innerContent = "0-9".toList then
    if isNegated then "Any character except digits".toList
    else "Any digit (0-9)".toList
  else
    let pre := if isNegated then "Any character except: ".toList else "Any of: ".toList
    let parts := describeClassParts innerContent
    match parts with
    | [p] => pre ++ p
    | _ => pre ++ joinComma parts

/-- The scanning `while` loop of `parseCharacterClass`: consumes characters
up to and including the closing `]`, treating `\X` pairs as content, and
returns the consumed raw text, the accumulated content, and the rest.  `none`
models falling off the end of the input (unclosed class). -/
def classScan : Str → Option (Str × Str × Str)
  | [] => none
  | c :: rest =>
    if c = ']' then some ([']'], [], rest)
    else if c = '\\' then
      match rest with
      | [] => none
      | c2 :: rest2 =>
        match classScan rest2 with
        | none => none
        | some (rawT, contentT, r) => some (c :: c2 :: rawT, c :: c2 :: contentT, r)
    else
      match classScan rest with
      | none => none
      | some (rawT, contentT, r) => some (c :: rawT, c :: contentT, r)

/-- The two leading `if`s of `parseCharacterClass`: a `^` right after the
opening bracket is consumed as negation marker, and a `]` right after that
(or right after the bracket) is consumed as a literal member.  Returns the
consumed characters and the remaining input. -/
def classPrehandle (rest : Str) : Str × Str :=
  match rest with
  | '^' :: ']' :: r => (['^', ']'], r)
  | '^' :: r => (['^'], r)
  | ']' :: r => ([']'], r)
  | r => (([] : Str), r)

/-- `parseCharacterClass`: handles the optional leading `^` and a literal
`]` first character, then scans for the closing bracket.  Returns the raw
text (including the brackets), the content between them, and the rest. -/
def parseCharacterClass (s : Str) : Option (Str × Str × Str) :=
  match s with
  | '[' :: rest =>
    let p := classPrehandle rest
    match classScan p.2 with
    | none => none
    | some (rawT, contentT, r) => some ('[' :: (p.1 ++ rawT), p.1 ++ contentT, r)
  | _ => none

/-- The two depth-update lines of the group-scanning loop of
`tokenizeRegex`: an unescaped `(` increments and an unescaped `)`
decrements the depth. -/
def groupDepthUpdate (prev c : Char) (depth : Nat) : Nat :=
  let d1 := if c = '(' ∧ prev ≠ '\\' then depth + 1 else depth
  if c = ')' ∧ prev ≠ '\\' then d1 - 1 else d1

/-- The depth-counting `while` loop of the group branch of `tokenizeRegex`:
`prev` is the previous character of the original input (a parenthesis right
after an unescaped backslash is non-structural).  Returns the consumed text
(up to and including the parenthesis that closes the group) and the rest. -/
def groupScan (prev : Char) (depth : Nat) : Str → Option (Str × Str)
  | [] => none
  | c :: rest =>
    if groupDepthUpdate prev c depth = 0 then some ([c], rest)
    else
      match groupScan c (groupDepthUpdate prev c depth) rest with
      | none => none
      | some (consumed, r) => some (c :: consumed, r)

/-- The escape-sequence mapping of `tokenizeRegex` (the `if` chain on the
character after a backslash, inlined there). -/
def escapeInfo (escapeChar : Char) : TokenType × Str :=
  if escapeChar = 'd' then (.DIGIT, "Any digit (0-9)".toList)
  else if escapeChar = 'D' then (.DIGIT, "Any non-digit".toList)
  else if escapeChar = 's' then (.WHITESPACE, "Any whitespace character".toList)
  else if escapeChar = 'S' then (.WHITESPACE, "Any non-whitespace character".toList)
  else if escapeChar = 'w' then (.CHAR_CLASS, "Any word character (a-z, A-Z, 0-9, _)".toList)
  else if escapeChar = 'W' then (.CHAR_CLASS, "Any non-word character".toList)
  else if escapeChar = 'b' then (.ANCHOR_START, "Word boundary".toList)
  else if escapeChar = 'B' then (.ANCHOR_START, "Non-word boundary".toList)
  else (.LITERAL, "Literal: ".toList ++ [escapeChar])

/-- The `startsWith` chain selecting a group description in `tokenizeRegex`. -/
def groupDescription (groupContent : Str) : Str :=
  if ("(?:".toList).isPrefixOf groupContent then "Non-capturing group".toList
  else if ("(?=".toList).isPrefixOf groupContent then "Positive lookahead".toList
  else if ("(?!".toList).isPrefixOf groupContent then "Negative lookahead".toList
  else if ("(?<=".toList).isPrefixOf groupContent then "Positive lookbehind".toList
  else if ("(?<!".toList).isPrefixOf groupContent then "Negative lookbehind".toList
  else "Group".toList

/-- The quantifier lookahead performed after every base unit of
`tokenizeRegex`: on success the quantifier is folded into the token and its
raw text appended; otherwise the token is emitted as is.  (The source
repeats this `quantResult` pattern at each recognizer.) -/
def withQuant (type : TokenType) (baseRaw desc rest : Str) : Token × Str :=
  match parseQuantifier rest with
  | some (q, qraw, rest1) => (createToken type (baseRaw ++ qraw) desc (some q), rest1)
  | none => (createToken type baseRaw desc none, rest)

/-- One iteration of the scanning loop of `tokenizeRegex` on input
`c :: rest`: recognizes, in the source's priority order, an anchor, an
escape sequence, a character class, a group, an alternation bar, a dot, or a
literal character, and returns the produced token together with the
remaining input.  A failed class or group recognition falls through to the
literal case, as in the source. -/
def tokenizeStep (c : Char) (rest : Str) : Token × Str :=
  if c = '^' then (createToken .ANCHOR_START ['^'] ( "Starts with".toList) none, rest)
  else if c = '$' then (createToken .ANCHOR_END ['$'] ( "Ends with".toList) none, rest)
  else if c = '\\' then
    match rest with
    | [] => withQuant .LITERAL [c] ( "Literal: ".toList ++ [c]) rest
    | e :: rest2 => withQuant (escapeInfo e).1 ['\\', e] (escapeInfo e).2 rest2
  else if c = '[' then
    match parseCharacterClass (c :: rest) with
    | some (rawC, content, rest1) =>
      withQuant .CHAR_CLASS rawC (describeCharacterClass content) rest1
    | none => withQuant .LITERAL [c] ( "Literal: ".toList ++ [c]) rest
  else if c = '(' then
    match groupScan c 1 rest with
    | some (consumed, rest1) =>
      withQuant .CHAR_CLASS (c :: consumed) (groupDescription (c :: consumed)) rest1
    | none => withQuant .LITERAL [c] ( "Literal: ".toList ++ [c]) rest
  else if c = '|' then (createToken .LITERAL ['|'] ( "Or".toList) none, rest)
  else if c = '.' then withQuant .CHAR_CLASS ['.'] ( "Any character".toList) rest
  else withQuant .LITERAL [c] ( "Literal: ".toList ++ [c]) rest

/-- The scanning `while` loop of `tokenizeRegex`.  `fuel` bounds the number
of iterations; since every step consumes at least one character, a fuel of
the input's length is always sufficient (proved below as the forward
progress property). -/
def tokenizeAux : Nat → Str → List Token
  | _, [] => []
  | 0, _ => []
  | fuel + 1, c :: rest =>
    (tokenizeStep c rest).1 :: tokenizeAux fuel (tokenizeStep c rest).2

/-- `tokenizeRegex`.  The `try`/`catch` of the source cannot fire in the
embedding (every helper is total), so the result is always the success
branch. -/
def tokenizeRegex (input : Str) : TokenizeResult :=
  if input = [] then { success := true, tokens := [] }
  else { success := true, tokens := tokenizeAux input.length input }

/-- `src/lib/pretty-printer.ts` : `tokensToRegex`. -/
def tokensToRegex (tokens : List Token) : Str :=
  if tokens = [] then [] else (tokens.map Token.raw).flatten

/-! ## Matcher (`src/lib/matcher.ts`)

`findMatches` delegates pattern compilation and execution to the host
platform's regular-expression engine (`new RegExp(pattern, 'g')` and
`text.matchAll`).  The host is external to the repository, so it is modeled
as an abstract environment: compiling a pattern either throws (an `Error`
carrying a message, or some non-`Error` value) or yields a compiled regex
whose `matchAll` returns a list of raw host matches. -/

/-- A raw match as reported by the host's `matchAll`: the matched substring
(`match[0]`) and its offset (`match.index`, always defined for `matchAll`). -/
structure HostMatch where
  index : Nat
  matched : Str
  deriving DecidableEq, Repr

/-- A compiled host regular expression (global flag set). -/
structure HostRegex where
  matchAll : Str → List HostMatch

/-- The value thrown by a failed `new RegExp`: `some msg` models an `Error`
whose `message` is `msg`; `none` models a thrown non-`Error` value. -/
abbrev JsThrown := Option Str

/-- The host environment: `new RegExp(pattern, 'g')` either throws or
returns a compiled regex. -/
structure Host where
  compile : Str → Except JsThrown HostRegex

/-- `error instanceof Error ? error.message : 'Invalid regex pattern'`. -/
def errorText (e : JsThrown) : Str :=
  match e with
  | some msg => msg
  | none => "Invalid regex pattern".toList

/-- `findMatches`, parameterized by the host environment. -/
def findMatches (host : Host) (pattern text : Str) : MatchResult :=
  if pattern = [] then { success := true, «matches» := [] }
  else
    match host.compile pattern with
    | .error e =>
      { success := false, «matches» := [], error := some (errorText e) }
    | .ok regex =>
      if text = [] then { success := true, «matches» := [] }
      else
        { success := true,
          «matches» := (regex.matchAll text).map fun m =>
            { text := m.matched, start := m.index,
              «end» := m.index + m.matched.length } }

/-! ## Spec-side definitions used to state the claims -/

/-- The escaping described by the spec for Text blocks: every character of
the class `\ ^ $ . * + ? ( ) [ ] \x7b \x7d |` is replaced by itself preceded
by a backslash, all other characters are unchanged. -/
def specEscapeChar (c : Char) : Str :=
  if c ∈ (['\\', '^', '$', '.', '*', '+', '?', '(', ')', '[', ']', '{', '}', '|'] : List Char)
  then ['\\', c] else [c]

/-- The spec-side description of Text-block escaping, applied characterwise. -/
def specEscapeText (value : Str) : Str := (value.map specEscapeChar).flatten

/-- The block kinds supported by both compiler versions (the legacy
compiler's six explicit cases). -/
def BasicBlockVal : BlockVal → Prop
  | .START => True
  | .END => True
  | .TEXT _ => True
  | .DIGIT _ => True
  | .WHITESPACE => True
  | .OPTIONAL _ => True
  | _ => False

instance : DecidablePred BasicBlockVal := fun v => by
  cases v <;> simp only [BasicBlockVal] <;> infer_instance

/-- The numeric-field sanity stated by the spec for quantifiers: an exact
count is non-negative, and so are the bounds of a range. -/
def QuantValuesNonneg : Quantifier → Prop
  | .exact count => 0 ≤ count
  | .range mn mx => 0 ≤ mn ∧ ∀ m, mx = some m → 0 ≤ m
  | _ => True

/-- A concrete host used to witness the matcher theorems: it rejects every
pattern with the message `bad`. -/
def hostRejecting : Host :=
  { compile := fun _ => .error (some ( "bad".toList)) }

/-- A concrete compiled regex used to witness the match-position theorem:
on any text it reports the single match `1` at offset 2. -/
def hostRegexOne : HostRegex :=
  { matchAll := fun _ => [{ index := 2, matched := ['1'] }] }

/-- A concrete host whose compilation always succeeds with `hostRegexOne`. -/
def hostAccepting : Host :=
  { compile := fun _ => .ok hostRegexOne }

/-! ## Helper lemmas -/

theorem escapeRegexChars_eq_spec (value : Str) :
    Compiler.escapeRegexChars value = specEscapeText value := by
  induction value with
  | nil => rfl
  | cons c rest ih =>
    simp only [Compiler.escapeRegexChars, specEscapeText, List.map_cons,
      List.flatten_cons, ih, specEscapeChar, Compiler.SPECIAL_REGEX_CHARS]

theorem legacy_escape_eq (value : Str) :
    CompilerLegacy.escapeRegexChars value = Compiler.escapeRegexChars value := by
  induction value with
  | nil => rfl
  | cons c rest ih =>
    simp only [CompilerLegacy.escapeRegexChars, Compiler.escapeRegexChars, ih,
      CompilerLegacy.SPECIAL_REGEX_CHARS, Compiler.SPECIAL_REGEX_CHARS]

theorem legacy_compileBlock_eq (b : Block) (h : BasicBlockVal b.val) :
    CompilerLegacy.compileBlock b = Compiler.compileBlock b := by
  obtain ⟨i, v⟩ := b
  cases v <;>
    simp_all only [BasicBlockVal, CompilerLegacy.compileBlock, Compiler.compileBlock,
      legacy_escape_eq]

@[simp] theorem createToken_raw (type : TokenType) (raw d : Str) (q : Option Quantifier) :
    (createToken type raw d q).raw = raw := rfl

@[simp] theorem createToken_type (type : TokenType) (raw d : Str) (q : Option Quantifier) :
    (createToken type raw d q).type = type := rfl

@[simp] theorem createToken_quantifier (type : TokenType) (raw d : Str) (q : Option Quantifier) :
    (createToken type raw d q).quantifier = q := rfl

/-- A successful `parseQuantifier` consumed exactly its raw text: the raw
text followed by the returned rest is the input, and the raw text is
non-empty. -/
theorem parseQuantifier_raw {s : Str} {q : Quantifier} {qraw rest : Str}
    (h : parseQuantifier s = some (q, qraw, rest)) : qraw ++ rest = s ∧ qraw ≠ [] := by
  unfold parseQuantifier at h
  split at h
  · simp only [Option.some.injEq, Prod.mk.injEq] at h
    obtain ⟨rfl, rfl, rfl⟩ := h
    simp
  · simp only [Option.some.injEq, Prod.mk.injEq] at h
    obtain ⟨rfl, rfl, rfl⟩ := h
    simp
  · simp only [Option.some.injEq, Prod.mk.injEq] at h
    obtain ⟨rfl, rfl, rfl⟩ := h
    simp
  · dsimp only at h
    split at h
    · exact absurd h (by simp)
    · split at h
      · rename_i heq
        simp only [Option.some.injEq, Prod.mk.injEq] at h
        obtain ⟨-, rfl, rfl⟩ := h
        refine ⟨?_, by simp⟩
        simp only [List.cons_append, List.append_assoc, List.singleton_append,
          List.nil_append]
        rw [← heq, List.takeWhile_append_dropWhile]
      · rename_i heq
        split at h
        · rename_i heq2
          simp only [Option.some.injEq, Prod.mk.injEq] at h
          obtain ⟨-, rfl, rfl⟩ := h
          refine ⟨?_, by simp⟩
          simp only [List.cons_append, List.append_assoc, List.singleton_append,
            List.nil_append]
          rw [← heq2, List.takeWhile_append_dropWhile, ← heq,
            List.takeWhile_append_dropWhile]
        · exact absurd h (by simp)
      · exact absurd h (by simp)
  · exact absurd h (by simp)

/-- The numeric fields of any quantifier produced by `parseQuantifier` are
non-negative (they are `parseInt` values of digit runs). -/
theorem parseQuantifier_nonneg {s : Str} {q : Quantifier} {qraw rest : Str}
    (h : parseQuantifier s = some (q, qraw, rest)) : QuantValuesNonneg q := by
  unfold parseQuantifier at h
  split at h
  · simp only [Option.some.injEq, Prod.mk.injEq] at h
    obtain ⟨rfl, -, -⟩ := h
    simp [QuantValuesNonneg]
  · simp only [Option.some.injEq, Prod.mk.injEq] at h
    obtain ⟨rfl, -, -⟩ := h
    simp [QuantValuesNonneg]
  · simp only [Option.some.injEq, Prod.mk.injEq] at h
    obtain ⟨rfl, -, -⟩ := h
    simp [QuantValuesNonneg]
  · dsimp only at h
    split at h
    · exact absurd h (by simp)
    · split at h
      · simp only [Option.some.injEq, Prod.mk.injEq] at h
        obtain ⟨rfl, -, -⟩ := h
        exact Int.natCast_nonneg _
      · split at h
        · simp only [Option.some.injEq, Prod.mk.injEq] at h
          obtain ⟨rfl, -, -⟩ := h
          refine ⟨Int.natCast_nonneg _, fun m hm => ?_⟩
          split at hm
          · exact absurd hm (by simp)
          · simp only [Option.some.injEq] at hm
            exact hm ▸ Int.natCast_nonneg _
        · exact absurd h (by simp)
      · exact absurd h (by simp)
  · exact absurd h (by simp)

/-- A successful `classScan` consumed exactly the returned raw text. -/
theorem classScan_raw {s rawT contentT rest : Str}
    (h : classScan s = some (rawT, contentT, rest)) : rawT ++ rest = s := by
  induction s using classScan.induct generalizing rawT contentT rest with
  | case1 => simp [classScan] at h
  | case2 rest0 =>
    unfold classScan at h
    rw [if_pos rfl] at h
    simp only [Option.some.injEq, Prod.mk.injEq] at h
    obtain ⟨rfl, -, rfl⟩ := h
    rfl
  | case3 hne =>
    unfold classScan at h
    rw [if_neg hne, if_pos rfl] at h
    simp at h
  | case4 c2 rest2 hnone hne ih =>
    unfold classScan at h
    rw [if_neg hne, if_pos rfl] at h
    dsimp only at h
    rw [hnone] at h
    simp at h
  | case5 c2 rest2 rawT2 contentT2 r2 hsome hne ih =>
    unfold classScan at h
    rw [if_neg hne, if_pos rfl] at h
    dsimp only at h
    rw [hsome] at h
    simp only [Option.some.injEq, Prod.mk.injEq] at h
    obtain ⟨rfl, -, rfl⟩ := h
    simpa using ih hsome
  | case6 c rest0 hne1 hne2 hnone ih =>
    unfold classScan at h
    rw [if_neg hne1, if_neg hne2, hnone] at h
    simp at h
  | case7 c rest0 hne1 hne2 rawT2 contentT2 r2 hsome ih =>
    unfold classScan at h
    rw [if_neg hne1, if_neg hne2, hsome] at h
    simp only [Option.some.injEq, Prod.mk.injEq] at h
    obtain ⟨rfl, -, rfl⟩ := h
    simpa using ih hsome

/-- The prefix handling of `parseCharacterClass` consumes exactly what it
returns. -/
theorem classPrehandle_append (rest : Str) :
    (classPrehandle rest).1 ++ (classPrehandle rest).2 = rest := by
  unfold classPrehandle
  split <;> rfl

/-- A successful `parseCharacterClass` consumed exactly the returned raw
text, which starts with the opening bracket. -/
theorem parseCharacterClass_raw {s rawC content rest : Str}
    (h : parseCharacterClass s = some (rawC, content, rest)) :
    rawC ++ rest = s ∧ ∃ t, rawC = '[' :: t := by
  unfold parseCharacterClass at h
  split at h
  · rename_i srest
    dsimp only at h
    cases hcs : classScan (classPrehandle srest).2 with
    | none => rw [hcs] at h; simp at h
    | some v =>
      obtain ⟨rawT, contentT, r2⟩ := v
      rw [hcs] at h
      simp only [Option.some.injEq, Prod.mk.injEq] at h
      obtain ⟨rfl, -, rfl⟩ := h
      refine ⟨?_, _, rfl⟩
      have hscan := classScan_raw hcs
      simp only [List.cons_append, List.cons.injEq, true_and, List.append_assoc]
      rw [hscan, classPrehandle_append]
  · simp at h

/-- A successful `groupScan` consumed exactly the returned text. -/
theorem groupScan_raw {prev : Char} {depth : Nat} {s consumed rest : Str}
    (h : groupScan prev depth s = some (consumed, rest)) : consumed ++ rest = s := by
  induction s generalizing prev depth consumed rest with
  | nil => simp [groupScan] at h
  | cons c srest ih =>
    unfold groupScan at h
    split at h
    · simp only [Option.some.injEq, Prod.mk.injEq] at h
      obtain ⟨rfl, rfl⟩ := h
      rfl
    · cases hgs : groupScan c (groupDepthUpdate prev c depth) srest with
      | none => rw [hgs] at h; simp at h
      | some v =>
        obtain ⟨consumed2, r2⟩ := v
        rw [hgs] at h
        simp only [Option.some.injEq, Prod.mk.injEq] at h
        obtain ⟨rfl, rfl⟩ := h
        simpa using ih hgs

/-- `withQuant` appends its consumed quantifier text to the base raw text:
the token's raw followed by the remaining input is the base raw followed by
the pre-quantifier input. -/
theorem withQuant_raw (type : TokenType) (baseRaw desc rest : Str) :
    (withQuant type baseRaw desc rest).1.raw ++ (withQuant type baseRaw desc rest).2 =
      baseRaw ++ rest := by
  cases h : parseQuantifier rest with
  | none => simp [withQuant, h]
  | some v =>
    obtain ⟨q, qraw, rest1⟩ := v
    simp only [withQuant, h, createToken_raw, List.append_assoc]
    rw [(parseQuantifier_raw h).1]

theorem withQuant_raw_ne (type : TokenType) (baseRaw desc rest : Str)
    (hb : baseRaw ≠ []) : (withQuant type baseRaw desc rest).1.raw ≠ [] := by
  cases h : parseQuantifier rest with
  | none => simpa [withQuant, h] using hb
  | some v =>
    obtain ⟨q, qraw, rest1⟩ := v
    simp [withQuant, h, hb]

theorem withQuant_type (type : TokenType) (baseRaw desc rest : Str) :
    (withQuant type baseRaw desc rest).1.type = type := by
  cases h : parseQuantifier rest with
  | none => simp [withQuant, h]
  | some v =>
    obtain ⟨q, qraw, rest1⟩ := v
    simp [withQuant, h]

/-- The raw text of a `withQuant` token keeps the head of its base raw text. -/
theorem withQuant_raw_cons (type : TokenType) (c0 : Char) (b desc rest : Str) :
    ∃ t, (withQuant type (c0 :: b) desc rest).1.raw = c0 :: t := by
  cases h : parseQuantifier rest with
  | none => exact ⟨b, by simp [withQuant, h]⟩
  | some v =>
    obtain ⟨q, qraw, rest1⟩ := v
    exact ⟨b ++ qraw, by simp [withQuant, h]⟩

/-- Any quantifier carried by a `withQuant` token was returned by
`parseQuantifier`. -/
theorem withQuant_quant {type : TokenType} {baseRaw desc rest : Str} {q : Quantifier}
    (h : (withQuant type baseRaw desc rest).1.quantifier = some q) :
    ∃ qraw rest1, parseQuantifier rest = some (q, qraw, rest1) := by
  cases hp : parseQuantifier rest with
  | none => simp [withQuant, hp] at h
  | some v =>
    obtain ⟨q', qraw, rest1⟩ := v
    simp only [withQuant, hp, createToken_quantifier, Option.some.injEq] at h
    exact ⟨qraw, rest1, by rw [h]⟩

theorem escapeInfo_type_ne (e : Char) : (escapeInfo e).1 ≠ TokenType.QUANTIFIER := by
  unfold escapeInfo
  split_ifs <;> simp

/-- Shape inversion for the scanner step: every branch either emits a
single-character token verbatim (the two anchors and the alternation bar,
which never look for a quantifier) or hands a non-empty base raw text that
accounts exactly for the consumed input to the quantifier lookahead; in
both cases the token type is never `QUANTIFIER`. -/
theorem tokenizeStep_shape (c : Char) (rest : Str) :
    (∃ ty d, ty ≠ TokenType.QUANTIFIER ∧
      tokenizeStep c rest = (createToken ty [c] d none, rest)) ∨
    (∃ ty baseRaw d r, ty ≠ TokenType.QUANTIFIER ∧ baseRaw ≠ [] ∧
      baseRaw ++ r = c :: rest ∧ tokenizeStep c rest = withQuant ty baseRaw d r) := by
  by_cases h1 : c = '^'
  · subst h1
    exact .inl ⟨.ANCHOR_START, ( "Starts with".toList), by decide,
      by rw [tokenizeStep.eq_def, if_pos rfl]⟩
  by_cases h2 : c = '$'
  · subst h2
    exact .inl ⟨.ANCHOR_END, ( "Ends with".toList), by decide,
      by rw [tokenizeStep.eq_def, if_neg (by decide), if_pos rfl]⟩
  by_cases h3 : c = '\\'
  · subst h3
    cases rest with
    | nil =>
      refine .inr ⟨.LITERAL, ['\\'], "Literal: ".toList ++ ['\\'], [],
        by decide, by simp, rfl, ?_⟩
      rw [tokenizeStep.eq_def, if_neg (by decide), if_neg (by decide), if_pos rfl]
    | cons e rest2 =>
      refine .inr ⟨(escapeInfo e).1, ['\\', e], (escapeInfo e).2, rest2,
        escapeInfo_type_ne e, by simp, rfl, ?_⟩
      rw [tokenizeStep.eq_def, if_neg (by decide), if_neg (by decide), if_pos rfl]
  by_cases h4 : c = '['
  · subst h4
    cases hpc : parseCharacterClass ('[' :: rest) with
    | none =>
      refine .inr ⟨.LITERAL, ['['], "Literal: ".toList ++ ['['], rest,
        by decide, by simp, rfl, ?_⟩
      rw [tokenizeStep.eq_def, if_neg (by decide), if_neg (by decide), if_neg (by decide),
        if_pos rfl, hpc]
    | some v =>
      obtain ⟨rawC, content, rest1⟩ := v
      obtain ⟨happ, t, hshape⟩ := parseCharacterClass_raw hpc
      refine .inr ⟨.CHAR_CLASS, rawC, describeCharacterClass content, rest1,
        by decide, by simp [hshape], happ, ?_⟩
      rw [tokenizeStep.eq_def, if_neg (by decide), if_neg (by decide), if_neg (by decide),
        if_pos rfl, hpc]
  by_cases h5 : c = '('
  · subst h5
    cases hg : groupScan '(' 1 rest with
    | none =>
      refine .inr ⟨.LITERAL, ['('], "Literal: ".toList ++ ['('], rest,
        by decide, by simp, rfl, ?_⟩
      rw [tokenizeStep.eq_def, if_neg (by decide), if_neg (by decide), if_neg (by decide),
        if_neg (by decide), if_pos rfl, hg]
    | some v =>
      obtain ⟨consumed, rest1⟩ := v
      have happ := groupScan_raw hg
      refine .inr ⟨.CHAR_CLASS, '(' :: consumed, groupDescription ('(' :: consumed),
        rest1, by decide, by simp, ?_, ?_⟩
      · simpa using congrArg (List.cons '(') happ
      · rw [tokenizeStep.eq_def, if_neg (by decide), if_neg (by decide), if_neg (by decide),
          if_neg (by decide), if_pos rfl, hg]
  by_cases h6 : c = '|'
  · subst h6
    exact .inl ⟨.LITERAL, ( "Or".toList), by decide,
      by rw [tokenizeStep.eq_def, if_neg (by decide), if_neg (by decide), if_neg (by decide),
        if_neg (by decide), if_neg (by decide), if_pos rfl]⟩
  by_cases h7 : c = '.'
  · subst h7
    refine .inr ⟨.CHAR_CLASS, ['.'], ( "Any character".toList), rest,
      by decide, by simp, rfl, ?_⟩
    rw [tokenizeStep.eq_def, if_neg (by decide), if_neg (by decide), if_neg (by decide),
      if_neg (by decide), if_neg (by decide), if_neg (by decide), if_pos rfl]
  · refine .inr ⟨.LITERAL, [c], "Literal: ".toList ++ [c], rest,
      by decide, by simp, rfl, ?_⟩
    rw [tokenizeStep.eq_def, if_neg h1, if_neg h2, if_neg h3, if_neg h4, if_neg h5,
      if_neg h6, if_neg h7]

/-- Each scanner step consumes exactly the raw text of the token it emits,
and that raw text is non-empty (forward progress). -/
theorem tokenizeStep_consumes (c : Char) (rest : Str) :
    (tokenizeStep c rest).1.raw ++ (tokenizeStep c rest).2 = c :: rest ∧
    (tokenizeStep c rest).1.raw ≠ [] := by
  rcases tokenizeStep_shape c rest with ⟨ty, d, -, heq⟩ | ⟨ty, baseRaw, d, r, -, hb, happ, heq⟩
  · rw [heq]
    exact ⟨rfl, by simp⟩
  · rw [heq]
    exact ⟨(withQuant_raw ty baseRaw d r).trans happ, withQuant_raw_ne ty baseRaw d r hb⟩

theorem tokenizeStep_rest_le (c : Char) (rest : Str) :
    (tokenizeStep c rest).2.length ≤ rest.length := by
  obtain ⟨happ, hne⟩ := tokenizeStep_consumes c rest
  have hl := congrArg List.length happ
  rw [List.length_append, List.length_cons] at hl
  cases hraw : (tokenizeStep c rest).1.raw with
  | nil => exact absurd hraw hne
  | cons a t => rw [hraw, List.length_cons] at hl; omega

theorem tokenizeStep_type_ne (c : Char) (rest : Str) :
    (tokenizeStep c rest).1.type ≠ TokenType.QUANTIFIER := by
  rcases tokenizeStep_shape c rest with ⟨ty, d, hty, heq⟩ | ⟨ty, baseRaw, d, r, hty, -, -, heq⟩
  · rw [heq]
    simpa using hty
  · rw [heq, withQuant_type]
    exact hty

/-- Any quantifier attached by a scanner step was produced by
`parseQuantifier`. -/
theorem tokenizeStep_quant (c : Char) (rest : Str) {q : Quantifier}
    (h : (tokenizeStep c rest).1.quantifier = some q) :
    ∃ s1 qraw r1, parseQuantifier s1 = some (q, qraw, r1) := by
  rcases tokenizeStep_shape c rest with ⟨ty, d, -, heq⟩ | ⟨ty, baseRaw, d, r, -, -, -, heq⟩
  · rw [heq] at h
    simp at h
  · rw [heq] at h
    obtain ⟨qraw, r1, hp⟩ := withQuant_quant h
    exact ⟨r, qraw, r1, hp⟩

/-- The scanning loop consumes its whole input whenever given at least as
much fuel as the input length: the concatenated raw texts of the produced
tokens reproduce the input exactly. -/
theorem tokenizeAux_flatten (fuel : Nat) : ∀ s : Str, s.length ≤ fuel →
    ((tokenizeAux fuel s).map Token.raw).flatten = s := by
  induction fuel with
  | zero =>
    intro s hs
    have : s = [] := List.eq_nil_of_length_eq_zero (Nat.le_zero.mp hs)
    subst this
    rfl
  | succ n ih =>
    intro s hs
    cases s with
    | nil => rfl
    | cons c rest =>
      rw [tokenizeAux, List.map_cons, List.flatten_cons]
      have hle : (tokenizeStep c rest).2.length ≤ n := by
        have := tokenizeStep_rest_le c rest
        rw [List.length_cons] at hs
        omega
      rw [ih _ hle]
      exact (tokenizeStep_consumes c rest).1

/-- Every token produced by the scanning loop has a non-`QUANTIFIER` type
and non-negative quantifier numerals. -/
theorem tokenizeAux_mem (fuel : Nat) : ∀ (s : Str) (t : Token), t ∈ tokenizeAux fuel s →
    t.type ≠ TokenType.QUANTIFIER ∧
    ∀ q, t.quantifier = some q → QuantValuesNonneg q := by
  induction fuel with
  | zero =>
    intro s t ht
    cases s <;> simp [tokenizeAux] at ht
  | succ n ih =>
    intro s t ht
    cases s with
    | nil => simp [tokenizeAux] at ht
    | cons c rest =>
      rw [tokenizeAux] at ht
      rcases List.mem_cons.mp ht with rfl | hmem
      · refine ⟨tokenizeStep_type_ne c rest, fun q hq => ?_⟩
        obtain ⟨s1, qraw, r1, hp⟩ := tokenizeStep_quant c rest hq
        exact parseQuantifier_nonneg hp
      · exact ih _ t hmem

theorem tokensToRegex_flatten (tokens : List Token) :
    tokensToRegex tokens = (tokens.map Token.raw).flatten := by
  unfold tokensToRegex
  split
  · simp_all
  · rfl

/-- C3: evaluation of the compiler at the failing input.  An OPTIONAL block
with empty content compiles to the bare string `?`, which the host
regular-expression compiler rejects ("nothing to repeat"); the compiler's
own documentation promises a syntactically valid regex string. -/
theorem compile_optional_empty_eval :
    Compiler.compileBlocksToRegex [{ id := [], val := .OPTIONAL [] }] = ['?'] := by
  decide

/-- C7: block mapping with the defensive default.  `[Start]` compiles to
`^`, `[End]` to `$`, `[Whitespace]` to `\s`, `[Digit N]` to `\d{N}` for
positive `N`, and to `\d{1}` for non-positive `N` (the count is silently
normalized, never omitted). -/
theorem compiler_block_mapping (i : Str) (N : Int) :
    Compiler.compileBlocksToRegex [⟨i, .START⟩] = ['^'] ∧
    Compiler.compileBlocksToRegex [⟨i, .END⟩] = ['$'] ∧
    Compiler.compileBlocksToRegex [⟨i, .WHITESPACE⟩] = ['\\', 's'] ∧
    (0 < N →
      Compiler.compileBlocksToRegex [⟨i, .DIGIT N⟩] =
        '\\' :: 'd' :: '{' :: intToStr N ++ ['}']) ∧
    (N ≤ 0 →
      Compiler.compileBlocksToRegex [⟨i, .DIGIT N⟩] = ['\\', 'd', '{', '1', '}']) := by
  refine ⟨?_, ?_, ?_, ?_, ?_⟩ <;>
    simp only [Compiler.compileBlocksToRegex, Compiler.compileBlock,
      List.flatten, List.map, if_neg (List.cons_ne_nil _ _), List.append_nil]
  · intro h
    simp [if_pos h]
  · intro h
    rw [if_neg (by omega)]
    decide

/-- C7 witness: the digit mapping at the concrete counts 3 and -2. -/
theorem compiler_block_mapping_witness :
    Compiler.compileBlocksToRegex [⟨[], .DIGIT 3⟩] = ['\\', 'd', '{', '3', '}'] ∧
    Compiler.compileBlocksToRegex [⟨[], .DIGIT (-2)⟩] = ['\\', 'd', '{', '1', '}'] :=
  ⟨((compiler_block_mapping [] 3).2.2.2.1 (by decide)).trans (by decide),
   (compiler_block_mapping [] (-2)).2.2.2.2 (by decide)⟩

/-- C8: a Text block compiles to its value with every character of the class
`\ ^ $ . * + ? ( ) [ ] \x7b \x7d |` replaced by that character preceded by a
backslash, all other characters unchanged; the empty value compiles to the
empty string. -/
theorem text_block_escaping (i : Str) (V : Str) :
    Compiler.compileBlocksToRegex [⟨i, .TEXT V⟩] = specEscapeText V ∧
    Compiler.compileBlocksToRegex [⟨i, .TEXT []⟩] = [] := by
  constructor <;>
    simp [Compiler.compileBlocksToRegex, Compiler.compileBlock,
      escapeRegexChars_eq_spec, specEscapeText]

/-- C10: the legacy (partial) compiler and the full compiler return
identical strings on every block sequence built only from START, END, TEXT,
DIGIT, WHITESPACE and OPTIONAL blocks. -/
theorem compilers_agree_on_basic_blocks (blocks : List Block)
    (h : ∀ b ∈ blocks, BasicBlockVal b.val) :
    CompilerLegacy.compileBlocksToRegex blocks = Compiler.compileBlocksToRegex blocks := by
  by_cases hb : blocks = [] <;>
    simp only [CompilerLegacy.compileBlocksToRegex, Compiler.compileBlocksToRegex,
      if_pos, if_neg, hb, if_true, if_false, reduceIte]
  exact congrArg List.flatten (List.map_congr_left fun b hbm => legacy_compileBlock_eq b (h b hbm))

/-- C10 witness: agreement on a concrete two-block sequence. -/
theorem compilers_agree_on_basic_blocks_witness :
    CompilerLegacy.compileBlocksToRegex [⟨[], .START⟩, ⟨[], .TEXT ['a', '.']⟩] =
      Compiler.compileBlocksToRegex [⟨[], .START⟩, ⟨[], .TEXT ['a', '.']⟩] :=
  compilers_agree_on_basic_blocks _ (by decide)


/-! ## Claim theorems: tokenizer and pretty-printer -/

/-- C1: round-trip law.  For every pattern string, concatenating the `raw`
fields of the tokens returned by `tokenizeRegex` (which is what
`tokensToRegex` does) reproduces the source string exactly.  This is proved
for all input strings, hence in particular for those built from the
supported grammar units. -/
theorem tokenize_print_roundtrip (input : Str) :
    tokensToRegex (tokenizeRegex input).tokens = input := by
  by_cases h : input = []
  · subst h
    rfl
  · have htk : (tokenizeRegex input).tokens = tokenizeAux input.length input := by
      rw [tokenizeRegex, if_neg h]
    rw [htk, tokensToRegex_flatten]
    exact tokenizeAux_flatten input.length input le_rfl

/-- C2: tokenizer total success.  `tokenizeRegex` returns `success = true`
on every input (the embedding is total, so no exception path exists), and a
malformed character class degrades to literal tokens: whenever the input
starts with `[` and `parseCharacterClass` fails on it, the first token
emitted is a LITERAL whose raw text starts with that `[`.  Completion of
the scan is the round-trip theorem: the emitted tokens jointly consume the
entire input. -/
theorem tokenizer_total_success (input : Str) :
    (tokenizeRegex input).success = true ∧
    (∀ rest, input = '[' :: rest → parseCharacterClass input = none →
      ∃ t ts r, (tokenizeRegex input).tokens = t :: ts ∧
        t.type = TokenType.LITERAL ∧ t.raw = '[' :: r) := by
  constructor
  · rw [tokenizeRegex]
    split <;> rfl
  · intro rest hin hpc
    subst hin
    have htk : (tokenizeRegex ('[' :: rest)).tokens =
        tokenizeAux ('[' :: rest).length ('[' :: rest) := by
      rw [tokenizeRegex, if_neg (by simp)]
    rw [htk, List.length_cons, tokenizeAux]
    have hstep : tokenizeStep '[' rest =
        withQuant .LITERAL ['['] ( "Literal: ".toList ++ ['[']) rest := by
      rw [tokenizeStep.eq_def, if_neg (by decide), if_neg (by decide),
        if_neg (by decide), if_pos rfl, hpc]
    obtain ⟨r, hr⟩ := withQuant_raw_cons .LITERAL '[' []
      ( "Literal: ".toList ++ ['[']) rest
    exact ⟨_, _, r, rfl, by rw [hstep, withQuant_type], by rw [hstep]; exact hr⟩

/-- C2 witness: the unterminated class `[a-` tokenizes successfully and its
`[` heads a literal token. -/
theorem tokenizer_total_success_witness :
    (tokenizeRegex ( "[a-".toList)).success = true ∧
    (∃ t ts r, (tokenizeRegex ( "[a-".toList)).tokens = t :: ts ∧
      t.type = TokenType.LITERAL ∧ t.raw = '[' :: r) :=
  ⟨(tokenizer_total_success ( "[a-".toList)).1,
   (tokenizer_total_success ( "[a-".toList)).2 ( "a-".toList) rfl (by decide)⟩

/-- C9: the tokenizer never emits a token of type `QUANTIFIER`; a
recognized trailing quantifier is always folded into the preceding base
token (its raw text is appended there by `withQuant`). -/
theorem tokenizer_no_quantifier_tokens (input : Str) (t : Token)
    (ht : t ∈ (tokenizeRegex input).tokens) : t.type ≠ TokenType.QUANTIFIER := by
  rw [tokenizeRegex] at ht
  by_cases h : input = []
  · simp [h] at ht
  · rw [if_neg h] at ht
    exact (tokenizeAux_mem input.length input t ht).1

/-- C9 witness: the token produced for the input `a` is not a QUANTIFIER
token. -/
theorem tokenizer_no_quantifier_tokens_witness :
    (createToken .LITERAL ['a'] ( "Literal: a".toList) none).type ≠
      TokenType.QUANTIFIER :=
  tokenizer_no_quantifier_tokens ['a'] _ (by decide)

/-- C6 counterexample: the claim's range invariant `max ≥ min` fails on the
code.  Tokenizing `a{5,2}` attaches the quantifier `range min=5 max=2`,
whose max is strictly below its min. -/
theorem tokenizer_range_order_cex :
    ((tokenizeRegex ( "a\x7b5,2\x7d".toList)).tokens.map Token.quantifier) =
      [some (.range 5 (some 2))] ∧ ¬ ((5 : Int) ≤ 2) := by
  constructor
  · decide
  · decide

/-- C6 amended: the tokenizer guarantees only non-negativity of quantifier
numerals (they are parsed from digit runs): an `exact` count is ≥ 0 and
both bounds of a `range` are ≥ 0 when present; the ordering `max ≥ min`
claimed by the spec is not enforced (see the counterexample). -/
theorem tokenizer_quantifier_nonneg (input : Str) (t : Token)
    (ht : t ∈ (tokenizeRegex input).tokens) (q : Quantifier)
    (hq : t.quantifier = some q) : QuantValuesNonneg q := by
  rw [tokenizeRegex] at ht
  by_cases h : input = []
  · simp [h] at ht
  · rw [if_neg h] at ht
    exact (tokenizeAux_mem input.length input t ht).2 q hq

/-- C6 amended witness: the exact count parsed from `a\x7b3\x7d` is
non-negative. -/
theorem tokenizer_quantifier_nonneg_witness : QuantValuesNonneg (.exact 3) :=
  tokenizer_quantifier_nonneg ( "a\x7b3\x7d".toList)
    (createToken .LITERAL ( "a\x7b3\x7d".toList) ( "Literal: a".toList)
      (some (.exact 3)))
    (by decide) (.exact 3) rfl

/-! ## Claim theorems: matcher -/

/-- C4: matcher graceful failure.  For every pattern the host compiler
rejects (with non-empty diagnostic messages, as real hosts produce) and
every text, `findMatches` returns `success = false`, an empty match list
and a non-empty error string; the exception is converted into data, never
propagated (the embedding's `Except` models the caught `try`/`catch`).
The hypothesis `pattern ≠ []` is harmless: the real host accepts the empty
pattern, and `findMatches` returns early on it without compiling. -/
theorem matcher_graceful_failure (host : Host) (pattern text : Str) (e : JsThrown)
    (hp : pattern ≠ [])
    (hc : host.compile pattern = .error e)
    (hmsg : ∀ m, e = some m → m ≠ []) :
    (findMatches host pattern text).success = false ∧
    (findMatches host pattern text).«matches» = [] ∧
    ∃ msg, (findMatches host pattern text).error = some msg ∧ msg ≠ [] := by
  rw [findMatches, if_neg hp, hc]
  refine ⟨rfl, rfl, errorText e, rfl, ?_⟩
  cases e with
  | none => simp [errorText]
  | some m => exact hmsg m rfl

/-- C4 witness: a host that rejects `(` with the message `bad`. -/
theorem matcher_graceful_failure_witness :
    (findMatches hostRejecting ['('] ( "abc".toList)).success = false ∧
    (findMatches hostRejecting ['('] ( "abc".toList)).«matches» = [] ∧
    ∃ msg, (findMatches hostRejecting ['('] ( "abc".toList)).error = some msg ∧
      msg ≠ [] :=
  matcher_graceful_failure hostRejecting ['('] ( "abc".toList)
    (some ( "bad".toList)) (by decide) rfl
    (fun m hm => by cases hm; decide)

/-- C5: match position invariant.  Whenever the host compiles the pattern
and its raw matches are positionally sound (each matched substring really
occurs at its reported offset — the host's own guarantee), every match in
the result satisfies `0 ≤ start ≤ end ≤ length text` (the lower bound holds
by the `Nat` type of offsets), its text is the slice `text[start:end]`, and
`end = start + length(matched text)`; the result is a success. -/
theorem match_position_invariant (host : Host) (pattern text : Str)
    (regex : HostRegex)
    (hc : host.compile pattern = .ok regex)
    (hsound : ∀ m ∈ regex.matchAll text,
      m.index + m.matched.length ≤ text.length ∧
      m.matched = (text.drop m.index).take m.matched.length) :
    (findMatches host pattern text).success = true ∧
    ∀ mt ∈ (findMatches host pattern text).«matches»,
      mt.start ≤ mt.«end» ∧ mt.«end» ≤ text.length ∧
      mt.text = (text.drop mt.start).take (mt.«end» - mt.start) ∧
      mt.«end» = mt.start + mt.text.length := by
  by_cases hp : pattern = []
  · rw [findMatches, if_pos hp]
    exact ⟨rfl, by simp⟩
  · rw [findMatches, if_neg hp, hc]
    dsimp only
    by_cases ht : text = []
    · rw [if_pos ht]
      exact ⟨rfl, by simp⟩
    · rw [if_neg ht]
      refine ⟨rfl, ?_⟩
      intro mt hmt
      simp only [List.mem_map] at hmt
      obtain ⟨m, hm, rfl⟩ := hmt
      obtain ⟨hlen, hslice⟩ := hsound m hm
      refine ⟨by simp, hlen, ?_, rfl⟩
      simpa using hslice

/-- C5 witness: a host match `1` at offset 2 of `ab1` yields a match
satisfying the position invariant. -/
theorem match_position_invariant_witness :
    (findMatches hostAccepting ['d'] ( "ab1".toList)).success = true ∧
    ∀ mt ∈ (findMatches hostAccepting ['d'] ( "ab1".toList)).«matches»,
      mt.start ≤ mt.«end» ∧ mt.«end» ≤ ( "ab1".toList).length ∧
      mt.text = (( "ab1".toList).drop mt.start).take (mt.«end» - mt.start) ∧
      mt.«end» = mt.start + mt.text.length :=
  match_position_invariant hostAccepting ['d'] ( "ab1".toList) hostRegexOne
    rfl (by decide)
